import Mathlib

/-!
Verification of the MedicalSeg excerpt: the intensity normalizers of
`src/tools/preprocess_utils/values.py` and the evaluation driver of
`src/medicalseg/core/val.py`, embedded shallowly.

Arrays are modelled as Lean lists.  Voxel values are modelled by `EVal`, exact
rationals extended with the IEEE special values NaN and the two infinities,
because the normalizers' contracts explicitly concern NaN/inf propagation.
-/

/-- A floating-point value: NaN, +inf, -inf, or a finite number (exact ℚ). -/
inductive EVal where
  | nan : EVal
  | inf : EVal
  | ninf : EVal
  | fin : ℚ → EVal
deriving DecidableEq

/-- `x - m` for a voxel `x` and a finite scalar `m` (IEEE rules: NaN and the
infinities absorb subtraction of a finite number). -/
def esub : EVal → ℚ → EVal
  | .nan, _ => .nan
  | .inf, _ => .inf
  | .ninf, _ => .ninf
  | .fin q, m => .fin (q - m)

/-- `x / d` for a voxel `x` and a finite scalar `d` (IEEE rules: dividing by
zero sends `0` to NaN and a nonzero finite value to a signed infinity;
infinities keep or flip their sign with the divisor's sign; NaN propagates). -/
def ediv : EVal → ℚ → EVal
  | .nan, _ => .nan
  | .inf, d => if d < 0 then .ninf else .inf
  | .ninf, d => if d < 0 then .inf else .ninf
  | .fin q, d =>
    if d = 0 then
      if q = 0 then .nan else if 0 < q then .inf else .ninf
    else .fin (q / d)

/-- `np.clip(x, 0, 1)` on one voxel: NaN stays NaN, `+inf` clamps to 1,
`-inf` clamps to 0, a finite value is clamped into `[0, 1]`. -/
def eclip : EVal → EVal
  | .nan => .nan
  | .inf => .fin 1
  | .ninf => .fin 0
  | .fin q => .fin (min (max q 0) 1)

/-- Elementwise model of `Normalize(image, min_val, max_val)` from
`src/tools/preprocess_utils/values.py`:
`image = (image - min_val) / (max_val - min_val)` followed by
`np.clip(image, 0, 1, out=image)`. -/
def Normalize (image : List EVal) (min_val max_val : ℚ) : List EVal :=
  image.map fun v => eclip (ediv (esub v min_val) (max_val - min_val))

/-- Largest finite float64 value, `(2^53 - 1) * 2^971`. -/
def FLOAT64_MAX : ℚ := (2 ^ 53 - 1) * 2 ^ 971

/-- One voxel of `np.nan_to_num(image, copy=False, nan=HU_nan)`: NaN becomes
`HU_nan`; since `posinf`/`neginf` are not passed, the infinities become the
float64 extremes (numpy's default). -/
def nanToNum (HU_nan : ℚ) : EVal → EVal
  | .nan => .fin HU_nan
  | .inf => .fin FLOAT64_MAX
  | .ninf => .fin (-FLOAT64_MAX)
  | .fin q => .fin q

/-- Elementwise model of `HUNorm(image, HU_min, HU_max, HU_nan)` from
`src/tools/preprocess_utils/values.py`: `np.nan_to_num(image, copy=False,
nan=HU_nan)`, then `image = (image - HU_min) / (HU_max - HU_min)` and
`np.clip(image, 0, 1, out=image)`. -/
def HUNorm (image : List EVal) (HU_min HU_max HU_nan : ℚ) : List EVal :=
  let replaced := image.map (nanToNum HU_nan)
  replaced.map fun v => eclip (ediv (esub v HU_min) (HU_max - HU_min))

/-- Spec-side operation for the refinement claim about `HUNorm`: replace every
NaN voxel with `HU_nan` and leave every other voxel (including infinities)
unchanged. -/
def replaceNaNSpec (HU_nan : ℚ) : EVal → EVal
  | .nan => .fin HU_nan
  | v => v

/-- One pass `label[label == key] = val` over a whole ndarray. -/
def remapPass (arr : List ℤ) (key val : ℤ) : List ℤ :=
  arr.map fun x => if x = key then val else x

/-- Model of `label_remap(label, map_dict)` on an ndarray input: the
`(key, val)` pairs are applied sequentially in dict iteration order, each pass
rewriting the whole current array. -/
def label_remap (label : List ℤ) (map_dict : List (ℤ × ℤ)) : List ℤ :=
  map_dict.foldl (fun arr kv => remapPass arr kv.1 kv.2) label

/-- A `label` argument as Python sees it: a backend ndarray or a plain list. -/
inductive PyLabel where
  | ndarray : List ℤ → PyLabel
  | pylist : List ℤ → PyLabel
deriving DecidableEq

/-- `label[label == key] = val` when `label` is a plain Python list:
`label == key` evaluates to the Python `False`, which as an index is `0`, so
the statement writes `val` at index 0 (and raises IndexError on an empty
list). -/
def pyListPass (l : List ℤ) (val : ℤ) : Except String (List ℤ) :=
  if l.isEmpty then .error "IndexError: list assignment index out of range"
  else .ok (l.set 0 val)

/-- Model of `label_remap` including its type test.  The source line
`if not isinstance(label, np.ndarray): image = np.array(label)` binds the
conversion to the unused local `image`, so the loop always runs on the
original `label` object: elementwise masked assignment on an ndarray, the
index-0 assignment of `pyListPass` on a plain list. -/
def label_remapPy (label : PyLabel) (map_dict : List (ℤ × ℤ)) :
    Except String PyLabel :=
  match label with
  | .ndarray a => .ok (.ndarray (label_remap a map_dict))
  | .pylist l =>
      (map_dict.foldl
        (fun (acc : Except String (List ℤ)) kv =>
          acc.bind fun cur => pyListPass cur kv.2)
        (.ok l)).map PyLabel.pylist

/-- A heap of numpy arrays, indexed by references; models array identity for
the in-place/fresh-allocation claims. -/
abbrev Heap := List (List EVal)

/-- Heap-level model of `Normalize`: `image - min_val` and the division build a
fresh array (numpy binary operators allocate), the local name `image` is
rebound to it, and `np.clip(..., out=image)` writes into that fresh array
only.  Returns the reference of the result and the new heap. -/
def NormalizeRef (h : Heap) (r : ℕ) (min_val max_val : ℚ) : ℕ × Heap :=
  let img := h.getD r []
  let fresh := img.map fun v => eclip (ediv (esub v min_val) (max_val - min_val))
  (h.length, h ++ [fresh])

/-- Heap-level model of `HUNorm`: `np.nan_to_num(image, copy=False, ...)`
rewrites the caller's array in place, then the rescale allocates a fresh array
and the clip writes into that fresh array. -/
def HUNormRef (h : Heap) (r : ℕ) (HU_min HU_max HU_nan : ℚ) : ℕ × Heap :=
  let img := h.getD r []
  let replaced := img.map (nanToNum HU_nan)
  let h₁ := h.set r replaced
  let fresh := replaced.map fun v => eclip (ediv (esub v HU_min) (HU_max - HU_min))
  (h₁.length, h₁ ++ [fresh])

deriving instance DecidableEq for Except

/-! ### Helper lemmas about the normalizers -/

lemma map_ne_self_of_nan (l : List EVal) (nanv : ℚ) (hmem : EVal.nan ∈ l) :
    l.map (nanToNum nanv) ≠ l := by
  intro h
  induction l with
  | nil => cases hmem
  | cons y t ih =>
    simp only [List.map_cons, List.cons.injEq] at h
    rcases List.mem_cons.mp hmem with rfl | hm
    · exact EVal.noConfusion h.1
    · exact ih hm h.2

lemma pylist_foldl_ok (map_dict : List (ℤ × ℤ)) :
    ∀ (l : List ℤ), l ≠ [] →
      map_dict.foldl (fun (acc : Except String (List ℤ)) kv =>
          acc.bind fun cur => pyListPass cur kv.2) (.ok l)
        = .ok ((map_dict.getLast?).elim l fun kv => l.set 0 kv.2) := by
  induction map_dict with
  | nil => intro l _; rfl
  | cons kv rest ih =>
    intro l hl
    rw [List.foldl_cons]
    have hstep : ((Except.ok l).bind fun cur => pyListPass cur kv.2)
        = Except.ok (l.set 0 kv.2) := by
      simp [Except.bind, pyListPass, List.isEmpty_iff, hl]
    rw [hstep]
    have hset : l.set 0 kv.2 ≠ [] := by
      intro hc
      have := congrArg List.length hc
      simp at this
      exact hl this
    rw [ih (l.set 0 kv.2) hset]
    cases rest with
    | nil => rfl
    | cons r rs =>
      have hsome : ∃ x, (r :: rs).getLast? = some x := by
        cases hx : (r :: rs).getLast? with
        | none => exact absurd (List.getLast?_eq_none_iff.mp hx) (List.cons_ne_nil r rs)
        | some x => exact ⟨x, rfl⟩
      obtain ⟨x, hx⟩ := hsome
      rw [List.getLast?_cons_cons, hx]
      simp [List.set_set]

lemma pylist_foldl_error (e : String) (map_dict : List (ℤ × ℤ)) :
    map_dict.foldl (fun (acc : Except String (List ℤ)) kv =>
        acc.bind fun cur => pyListPass cur kv.2) (.error e) = .error e := by
  induction map_dict with
  | nil => rfl
  | cons kv rest ih => simpa [Except.bind] using ih

/-! ### Claims about the normalizers -/

lemma eclip_ediv_esub_fin (v mn mx : ℚ) (hd : mx - mn ≠ 0) :
    eclip (ediv (esub (EVal.fin v) mn) (mx - mn))
      = EVal.fin (min (max ((v - mn) / (mx - mn)) 0) 1) := by
  simp [esub, ediv, eclip, hd]

/-- C3: for any bounds with `max_val ≠ min_val`, `Normalize` returns the array
whose every element is `clamp((value - min_val) / (max_val - min_val), 0, 1)`;
with bounds `0`/`1` it is the identity on inputs already inside `[0, 1]`, and
every output value lies in `[0, 1]`. -/
theorem normalize_rescale_clamp (image : List ℚ) (mn mx : ℚ) (h : mx ≠ mn) :
    Normalize (image.map EVal.fin) mn mx
        = image.map (fun v => EVal.fin (min (max ((v - mn) / (mx - mn)) 0) 1))
      ∧ ((∀ v ∈ image, 0 ≤ v ∧ v ≤ 1) →
          Normalize (image.map EVal.fin) 0 1 = image.map EVal.fin)
      ∧ (∀ w ∈ Normalize (image.map EVal.fin) mn mx,
          ∃ q, w = EVal.fin q ∧ 0 ≤ q ∧ q ≤ 1) := by
  have hd : mx - mn ≠ 0 := sub_ne_zero.mpr h
  refine ⟨?_, ?_, ?_⟩
  · simp only [Normalize, List.map_map]
    exact List.map_congr_left fun v _ => eclip_ediv_esub_fin v mn mx hd
  · intro hin
    simp only [Normalize, List.map_map]
    apply List.map_congr_left
    intro v hv
    have hv' := hin v hv
    rw [Function.comp_apply, eclip_ediv_esub_fin v 0 1 (by norm_num)]
    rw [sub_zero, sub_zero, div_one]
    rw [max_eq_left hv'.1, min_eq_left hv'.2]
  · intro w hw
    rw [Normalize, List.map_map] at hw
    obtain ⟨v, _, rfl⟩ := List.mem_map.mp hw
    rw [Function.comp_apply, eclip_ediv_esub_fin v mn mx hd]
    exact ⟨min (max ((v - mn) / (mx - mn)) 0) 1, rfl,
      le_min (le_max_right _ _) zero_le_one, min_le_right _ _⟩

/-- Witness for C3 at a concrete array and bounds. -/
theorem normalize_rescale_clamp_witness :
    Normalize ([2, 1/2, -1].map EVal.fin) 0 1
      = [EVal.fin 1, EVal.fin (1/2), EVal.fin 0] := by
  have h := (normalize_rescale_clamp [2, 1/2, -1] 0 1 (by norm_num)).1
  rw [h]
  norm_num [min_def, max_def]

/-- C8: with `max_val == min_val` the division is not guarded and `Normalize`
does not raise: it still returns an array (the elementwise clip of the
zero-divisor rescale), and the unguarded rescale value of every voxel is one
of the special values NaN, `+inf`, `-inf`. -/
theorem normalize_degenerate_unguarded (image : List EVal) (m : ℚ) :
    Normalize image m m = image.map (fun v => eclip (ediv (esub v m) 0))
      ∧ ∀ v ∈ image,
          ediv (esub v m) 0 = EVal.nan ∨ ediv (esub v m) 0 = EVal.inf
            ∨ ediv (esub v m) 0 = EVal.ninf := by
  constructor
  · simp [Normalize, sub_self]
  · intro v _
    cases v with
    | nan => exact Or.inl rfl
    | inf => exact Or.inr (Or.inl (by simp [esub, ediv]))
    | ninf => exact Or.inr (Or.inr (by simp [esub, ediv]))
    | fin q =>
      rcases lt_trichotomy q m with hlt | heq | hgt
      · refine Or.inr (Or.inr ?_)
        have h1 : q - m ≠ 0 := sub_ne_zero.mpr (ne_of_lt hlt)
        have h2 : ¬(0 < q - m) := by simp [sub_pos]; exact le_of_lt hlt
        simp [esub, ediv, h1, h2]
      · exact Or.inl (by simp [esub, ediv, heq])
      · refine Or.inr (Or.inl ?_)
        have h1 : q - m ≠ 0 := sub_ne_zero.mpr (ne_of_gt hgt)
        have h2 : 0 < q - m := sub_pos.mpr hgt
        simp [esub, ediv, h1, h2]

/-- Witness for C8 at a concrete voxel and degenerate bounds. -/
theorem normalize_degenerate_unguarded_witness :
    Normalize [EVal.fin 5] 0 0 = [EVal.fin 1]
      ∧ (ediv (esub (EVal.fin 5) 0) 0 = EVal.nan
          ∨ ediv (esub (EVal.fin 5) 0) 0 = EVal.inf
          ∨ ediv (esub (EVal.fin 5) 0) 0 = EVal.ninf) := by
  have h := normalize_degenerate_unguarded [EVal.fin 5] 0
  refine ⟨?_, h.2 (EVal.fin 5) (by simp)⟩
  rw [h.1]
  norm_num [esub, ediv, eclip]

/-- C5: `label_remap` applies the `(key, value)` pairs sequentially in map
iteration order, each pass rewriting the whole current array (so voxels
rewritten by an earlier pair are re-scanned by later pairs); in particular
`{1: 2, 2: 1}` applied to `[1, 2, 1, 2]` yields `[1, 1, 1, 1]`. -/
theorem label_remap_sequential_passes :
    (∀ (lbl : List ℤ) (k v : ℤ) (rest : List (ℤ × ℤ)),
        label_remap lbl ((k, v) :: rest) = label_remap (remapPass lbl k v) rest)
      ∧ label_remap [1, 2, 1, 2] [(1, 2), (2, 1)] = [1, 1, 1, 1] :=
  ⟨fun _ _ _ _ => rfl, by decide⟩

/-- Counterexample for C9: on a plain (non-ndarray) nonempty Python list the
call does NOT fail — it returns ok — and the value it returns is not the
remapped array either. -/
theorem label_remap_pylist_counterexample :
    (label_remapPy (.pylist [1, 2, 1, 2]) [(1, 2), (2, 1)]).isOk = true
      ∧ label_remapPy (.pylist [1, 2, 1, 2]) [(1, 2), (2, 1)]
          ≠ .ok (.pylist (label_remap [1, 2, 1, 2] [(1, 2), (2, 1)])) := by
  constructor
  · decide
  · decide

/-- C9 (amended): on a plain Python list the conversion is bound to the unused
local `image` and the loop runs on the original list, where `label == key` is
`False` (index 0); for a nonempty list every pass overwrites element 0, so the
call succeeds and returns the original list with element 0 set to the last
pair's value — not a remapped array; only an empty list with a nonempty map
fails (IndexError). -/
theorem label_remap_pylist_behavior (l : List ℤ) (map_dict : List (ℤ × ℤ))
    (hne : l ≠ []) :
    label_remapPy (.pylist l) map_dict
        = .ok (.pylist ((map_dict.getLast?).elim l fun kv => l.set 0 kv.2))
      ∧ ∀ kv kvs, label_remapPy (.pylist []) (kv :: kvs)
          = .error "IndexError: list assignment index out of range" := by
  constructor
  · rw [label_remapPy, pylist_foldl_ok map_dict l hne]
    rfl
  · intro kv kvs
    rw [label_remapPy, List.foldl_cons]
    have hstep : ((Except.ok ([] : List ℤ)).bind fun cur => pyListPass cur kv.2)
        = Except.error "IndexError: list assignment index out of range" := by
      simp [Except.bind, pyListPass]
    rw [hstep, pylist_foldl_error]
    rfl

/-- Witness for C9's amended statement at a concrete list and map. -/
theorem label_remap_pylist_behavior_witness :
    label_remapPy (.pylist [5, 6]) [(7, 8)] = .ok (.pylist [8, 6]) := by
  have h := (label_remap_pylist_behavior [5, 6] [(7, 8)] (by decide)).1
  simpa using h

/-- Counterexample for C4: `np.nan_to_num` also replaces infinities (by the
float64 extremes), so `HUNorm` is NOT `Normalize` after replacing only the NaN
voxels: on the input `[+inf]` with bounds `HU_min = HU_max = FLOAT64_MAX`,
`HUNorm` produces `[NaN]` (from `0/0`) while the claimed composition produces
`[1]` (from `inf/0 = inf`, clipped). -/
theorem hunorm_vs_normalize_counterexample :
    HUNorm [EVal.inf] FLOAT64_MAX FLOAT64_MAX (-2000)
      ≠ Normalize ([EVal.inf].map (replaceNaNSpec (-2000)))
          FLOAT64_MAX FLOAT64_MAX := by
  norm_num [HUNorm, Normalize, esub, ediv, eclip, replaceNaNSpec, nanToNum,
    FLOAT64_MAX]
  decide

/-- C4 (amended): on arrays with no infinite voxels (finite or NaN entries),
`HUNorm(image, HU_min, HU_max, HU_nan)` equals `Normalize` with bounds
`HU_min`/`HU_max` applied to the array with every NaN voxel replaced by
`HU_nan`; consequently an all-NaN input yields a constant output equal to
`Normalize([HU_nan], HU_min, HU_max)` at every voxel. -/
theorem hunorm_refines_normalize_no_inf (image : List EVal) (mn mx nanv : ℚ)
    (hinf : EVal.inf ∉ image) (hninf : EVal.ninf ∉ image) :
    HUNorm image mn mx nanv = Normalize (image.map (replaceNaNSpec nanv)) mn mx
      ∧ ∀ (n : ℕ) (c : EVal), Normalize [EVal.fin nanv] mn mx = [c] →
          HUNorm (List.replicate n EVal.nan) mn mx nanv = List.replicate n c := by
  constructor
  · simp only [HUNorm, Normalize, List.map_map]
    apply List.map_congr_left
    intro v hv
    cases v with
    | nan => rfl
    | inf => exact absurd hv hinf
    | ninf => exact absurd hv hninf
    | fin q => rfl
  · intro n c hc
    simp only [Normalize, List.map_cons, List.map_nil, List.cons.injEq,
      and_true] at hc
    simp only [HUNorm, List.map_replicate, nanToNum, hc]

/-- Witness for C4's amended statement at a concrete NaN-containing array. -/
theorem hunorm_refines_normalize_no_inf_witness :
    HUNorm [EVal.nan, EVal.fin 0] (-1000) 600 (-2000)
      = Normalize ([EVal.nan, EVal.fin 0].map (replaceNaNSpec (-2000)))
          (-1000) 600 :=
  (hunorm_refines_normalize_no_inf [EVal.nan, EVal.fin 0] (-1000) 600 (-2000)
    (by decide) (by decide)).1

lemma getD_set_self (l : List (List EVal)) (n : ℕ) (a d : List EVal)
    (h : n < l.length) : (l.set n a).getD n d = a := by
  simp [List.getD_eq_getElem?_getD, List.getElem?_set_self', List.getElem?_eq_getElem, h]

lemma getD_concat_length (l : List (List EVal)) (a d : List EVal) :
    (l ++ [a]).getD l.length d = a := by
  rw [List.getD_append_right l [a] d l.length (le_refl _)]
  simp

/-- C10: at heap level, `HUNorm` mutates the caller's array in place —
after the call the caller's reference holds the array with its NaN entries
overwritten by `HU_nan` (so it changed whenever a NaN was present) — while its
result is a fresh reference; `Normalize` leaves the caller's array untouched
and returns a freshly allocated array holding the normalized values. -/
theorem hunorm_inplace_normalize_fresh (h : Heap) (r : ℕ) (mn mx nanv : ℚ)
    (hr : r < h.length) :
    ((HUNormRef h r mn mx nanv).2.getD r [] = (h.getD r []).map (nanToNum nanv))
      ∧ (EVal.nan ∈ h.getD r [] →
          (HUNormRef h r mn mx nanv).2.getD r [] ≠ h.getD r [])
      ∧ (HUNormRef h r mn mx nanv).1 ≠ r
      ∧ ((NormalizeRef h r mn mx).2.getD r [] = h.getD r [])
      ∧ (NormalizeRef h r mn mx).1 ≠ r
      ∧ (NormalizeRef h r mn mx).2.getD (NormalizeRef h r mn mx).1 []
          = Normalize (h.getD r []) mn mx := by
  have hlen : r < (h.set r ((h.getD r []).map (nanToNum nanv))).length := by
    simpa using hr
  have hmut : (HUNormRef h r mn mx nanv).2.getD r []
      = (h.getD r []).map (nanToNum nanv) := by
    simp only [HUNormRef]
    rw [List.getD_append _ _ _ r hlen]
    exact getD_set_self h r _ [] hr
  refine ⟨hmut, ?_, ?_, ?_, ?_, ?_⟩
  · intro hmem
    rw [hmut]
    exact map_ne_self_of_nan _ nanv hmem
  · simp only [HUNormRef, List.length_set]
    exact ne_of_gt hr
  · simp only [NormalizeRef]
    exact List.getD_append _ _ _ r hr
  · simp only [NormalizeRef]
    exact ne_of_gt hr
  · simp only [NormalizeRef]
    exact getD_concat_length h _ []

/-- Witness for C10 on a one-array heap holding `[NaN]`. -/
theorem hunorm_inplace_normalize_fresh_witness :
    (HUNormRef [[EVal.nan]] 0 0 1 5).2.getD 0 [] = [EVal.fin 5]
      ∧ (HUNormRef [[EVal.nan]] 0 0 1 5).1 ≠ 0
      ∧ (NormalizeRef [[EVal.nan]] 0 0 1).2.getD 0 [] = [EVal.nan] := by
  have h := hunorm_inplace_normalize_fresh [[EVal.nan]] 0 0 1 5 (by decide)
  refine ⟨?_, h.2.2.1, ?_⟩
  · rw [h.1]
    rfl
  · rw [h.2.2.2.1]
    rfl

/-! ### Model of the evaluation driver, `src/medicalseg/core/val.py`

The model covers single-process evaluation (`nranks = 1`): the batch sampler
has `batch_size=1`, `shuffle=False`, `drop_last=False`, so the loader yields
the dataset's samples one at a time in dataset order and `len(loader)` is the
dataset size.  The external collaborators — `infer.inference`,
`loss_computation`, `F.softmax` and `metric.auc_roc` — are oracles supplied
through `EvalEnv`.  Side effects (inference invocations and `np.save` calls)
are recorded in an explicit trace. -/

/-- One validation sample: the image volume and its label volume
(`label.astype('int64')` is the identity here since label volumes are
integer-valued). -/
structure Sample where
  im : List ℚ
  label : List ℤ
deriving DecidableEq

/-- The pair produced by `infer.inference`: the hard-label prediction and the
raw logits. -/
structure InferOut where
  pred : List ℤ
  logits : List ℚ
deriving DecidableEq

/-- The external collaborators of `evaluate`, passed as oracles.
`lossComp logits label` returns the weighted per-type losses and the
per-class Dice vector, as `loss_computation` does. -/
structure EvalEnv where
  inference : List ℚ → InferOut
  lossComp : List ℚ → List ℤ → List ℚ × List ℚ
  softmax : List ℚ → List ℚ
  aucMetric : List ℚ → List ℤ → ℚ

/-- Payload of one `np.save` call. -/
inductive FileData where
  | ints : List ℤ → FileData
  | rats : List ℚ → FileData
deriving DecidableEq

/-- Accumulators of the evaluation loop, together with the instrumentation
trace (inference invocations, file writes). -/
structure LoopState where
  mdice : ℚ
  channelDice : List ℚ
  lossAll : ℚ
  logitsAll : List ℚ
  labelAll : List ℤ
  infCalls : List (List ℚ)
  writes : List (String × FileData)
deriving DecidableEq

/-- `np.mean` of a vector. -/
def meanQ (l : List ℚ) : ℚ := l.sum / l.length

/-- Elementwise `+=` of two per-class Dice vectors (equal channel counts). -/
def addVec (a b : List ℚ) : List ℚ := List.zipWith (· + ·) a b

/-- The body of `for iter, (im, label) in enumerate(loader)` for one sample at
loop index `i`: run inference, optionally `np.save` the prediction, label and
image under `{save_dir}/{iter}_*.npy`, compute the loss and per-class Dice,
optionally accumulate softmaxed logits and labels for AUC-ROC, and update the
running aggregates. -/
def evalStep (env : EvalEnv) (aucRoc : Bool) (saveDir : Option String)
    (st : LoopState) (i : ℕ) (s : Sample) : LoopState :=
  let p := env.inference s.im
  let writes := st.writes ++ (match saveDir with
    | some d =>
        [(d ++ "/" ++ Nat.repr i ++ "_pred.npy", FileData.ints p.pred),
         (d ++ "/" ++ Nat.repr i ++ "_label.npy", FileData.ints s.label),
         (d ++ "/" ++ Nat.repr i ++ "_img.npy", FileData.rats s.im)]
    | none => [])
  let lc := env.lossComp p.logits s.label
  { mdice := st.mdice + meanQ lc.2,
    channelDice := if st.channelDice.isEmpty then lc.2 else addVec st.channelDice lc.2,
    lossAll := st.lossAll + lc.1.sum,
    logitsAll := if aucRoc then st.logitsAll ++ env.softmax p.logits else st.logitsAll,
    labelAll := if aucRoc then st.labelAll ++ s.label else st.labelAll,
    infCalls := st.infCalls ++ [s.im],
    writes := writes }

/-- The evaluation loop over the loader's samples, carrying the loop index. -/
def runLoop (env : EvalEnv) (aucRoc : Bool) (saveDir : Option String) :
    ℕ → LoopState → List Sample → LoopState
  | _, st, [] => st
  | i, st, s :: rest =>
      runLoop env aucRoc saveDir (i + 1) (evalStep env aucRoc saveDir st i s) rest

/-- Initial accumulators: `mdice = 0.0`, `channel_dice_array = np.array([])`,
`loss_all = 0.0`, `logits_all = label_all = None`. -/
def initState : LoopState :=
  { mdice := 0, channelDice := [], lossAll := 0, logitsAll := [], labelAll := [],
    infCalls := [], writes := [] }

/-- The record returned by `evaluate`: `{"mdice": ...}` plus `auc_roc` when
requested. -/
structure EvalResult where
  mdice : ℚ
  auc_roc : Option ℚ
deriving DecidableEq

/-- The side-effect trace of one `evaluate` call, plus the logged per-class
Dice means and mean loss. -/
structure EvalTrace where
  infCalls : List (List ℚ)
  writes : List (String × FileData)
  channelDice : List ℚ
  lossAll : ℚ
deriving DecidableEq

/-- Model of `evaluate(model, eval_dataset, losses, ...)`: iterate the loader
once accumulating the aggregates, then finalize by dividing by `total_iters`.
With an empty dataset the finalization `mdice /= total_iters` is
`0.0 /= 0` on a plain Python float, which raises `ZeroDivisionError`; this is
modelled by the `Except.error` branch. -/
def evaluate (env : EvalEnv) (dataset : List Sample) (aucRoc : Bool)
    (saveDir : Option String) : Except String (EvalResult × EvalTrace) :=
  let totalIters := dataset.length
  let st := runLoop env aucRoc saveDir 0 initState dataset
  if totalIters = 0 then
    .error "ZeroDivisionError: float division by zero"
  else
    .ok ({ mdice := st.mdice / totalIters,
           auc_roc :=
             if aucRoc then some (env.aucMetric st.logitsAll st.labelAll)
             else none },
         { infCalls := st.infCalls,
           writes := st.writes,
           channelDice := st.channelDice.map (· / totalIters),
           lossAll := st.lossAll / totalIters })

/-- The per-class Dice vector `loss_computation` yields for one sample. -/
def sampleDice (env : EvalEnv) (s : Sample) : List ℚ :=
  (env.lossComp (env.inference s.im).logits s.label).2

lemma runLoop_infCalls (env : EvalEnv) (a : Bool) (sd : Option String) :
    ∀ (ds : List Sample) (i : ℕ) (st : LoopState),
      (runLoop env a sd i st ds).infCalls = st.infCalls ++ ds.map Sample.im := by
  intro ds
  induction ds with
  | nil => intro i st; simp [runLoop]
  | cons s rest ih =>
    intro i st
    rw [runLoop, ih]
    simp [evalStep]

lemma runLoop_mdice (env : EvalEnv) (a : Bool) (sd : Option String) :
    ∀ (ds : List Sample) (i : ℕ) (st : LoopState),
      (runLoop env a sd i st ds).mdice
        = st.mdice + (ds.map fun s => meanQ (sampleDice env s)).sum := by
  intro ds
  induction ds with
  | nil => intro i st; simp [runLoop]
  | cons s rest ih =>
    intro i st
    rw [runLoop, ih]
    simp [evalStep, sampleDice]
    ring

/-- C1: on a non-empty dataset of size `N`, `evaluate` completes, invokes the
inference oracle exactly `N` times — once per sample, in dataset order (batch
size 1, no shuffling, no dropped partial batch) — and the reported `mdice` is
the arithmetic mean of the `N` per-sample means of the per-class Dice
vectors. -/
theorem evaluate_visits_once_mdice_mean (env : EvalEnv) (ds : List Sample)
    (auc : Bool) (sd : Option String) (hne : ds ≠ []) :
    (evaluate env ds auc sd).isOk = true
      ∧ ∀ r tr, evaluate env ds auc sd = .ok (r, tr) →
          tr.infCalls = ds.map Sample.im
          ∧ tr.infCalls.length = ds.length
          ∧ r.mdice = meanQ (ds.map fun s => meanQ (sampleDice env s)) := by
  have hlen : ds.length ≠ 0 := fun hc => hne (List.eq_nil_of_length_eq_zero hc)
  constructor
  · simp only [evaluate, if_neg hlen]
    rfl
  · intro r tr hok
    simp only [evaluate, if_neg hlen, Except.ok.injEq, Prod.mk.injEq] at hok
    obtain ⟨hr, htr⟩ := hok
    have hcalls : tr.infCalls = ds.map Sample.im := by
      rw [← htr]
      simpa [initState] using runLoop_infCalls env auc sd ds 0 initState
    refine ⟨hcalls, by rw [hcalls, List.length_map], ?_⟩
    have hmd : (runLoop env auc sd 0 initState ds).mdice
        = (ds.map fun s => meanQ (sampleDice env s)).sum := by
      simpa [initState] using runLoop_mdice env auc sd ds 0 initState
    rw [← hr]
    simp only [hmd, meanQ, List.length_map]

/-- Witness for C1 on a concrete one-sample dataset. -/
theorem evaluate_visits_once_mdice_mean_witness :
    (evaluate
        { inference := fun _ => { pred := [0], logits := [1, 0] },
          lossComp := fun _ _ => ([1/2], [1, 1/2]),
          softmax := fun l => l,
          aucMetric := fun _ _ => 3/4 }
        [{ im := [0], label := [1] }] false none).isOk = true :=
  (evaluate_visits_once_mdice_mean
    { inference := fun _ => { pred := [0], logits := [1, 0] },
      lossComp := fun _ _ => ([1/2], [1, 1/2]),
      softmax := fun l => l,
      aucMetric := fun _ _ => 3/4 }
    [{ im := [0], label := [1] }] false none (by simp)).1

/-- C2: on an empty dataset (`total_iters = 0`) `evaluate` fails explicitly
with the division-by-zero error raised by the finalization `mdice /=
total_iters` (a Python-float divide by an `int` 0) and returns no result
record at all, NaN-bearing or otherwise. -/
theorem evaluate_empty_dataset_division_error (env : EvalEnv) (auc : Bool)
    (sd : Option String) :
    evaluate env [] auc sd
      = .error "ZeroDivisionError: float division by zero" := rfl

/-- C7: whenever `evaluate` completes without error, the returned record has
its `mdice` field (by construction of `EvalResult`) and carries an `auc_roc`
value exactly when the `auc_roc` argument was true. -/
theorem evaluate_result_auc_field (env : EvalEnv) (ds : List Sample)
    (auc : Bool) (sd : Option String) (r : EvalResult) (tr : EvalTrace)
    (h : evaluate env ds auc sd = .ok (r, tr)) :
    r.auc_roc.isSome = auc := by
  by_cases hlen : ds.length = 0
  · rw [evaluate] at h
    simp [hlen] at h
  · simp only [evaluate, if_neg hlen, Except.ok.injEq, Prod.mk.injEq] at h
    rw [← h.1]
    cases auc with
    | false => rfl
    | true => rfl

/-- Witness for C7 on a concrete one-sample dataset with `auc_roc = true`. -/
theorem evaluate_result_auc_field_witness :
    (({ mdice := 3/4, auc_roc := some (3/4) } : EvalResult)).auc_roc.isSome
      = true :=
  evaluate_result_auc_field
    { inference := fun _ => { pred := [0], logits := [1, 0] },
      lossComp := fun _ _ => ([1/2], [1, 1/2]),
      softmax := fun l => l,
      aucMetric := fun _ _ => 3/4 }
    [{ im := [0], label := [1] }] true none
    { mdice := 3/4, auc_roc := some (3/4) }
    { infCalls := [[0]], writes := [], channelDice := [1, 1/2], lossAll := 1/2 }
    (by norm_num [evaluate, runLoop, evalStep, initState, meanQ])

/-! ### Decimal file names: facts about `Nat.repr` -/

lemma toDigitsCore_acc (b : ℕ) :
    ∀ (fuel n : ℕ) (l : List Char),
      Nat.toDigitsCore b fuel n l = Nat.toDigitsCore b fuel n [] ++ l := by
  intro fuel
  induction fuel with
  | zero => intro n l; rfl
  | succ f ih =>
    intro n l
    simp only [Nat.toDigitsCore]
    by_cases h : n / b = 0
    · simp [h]
    · rw [if_neg h, if_neg h, ih (n / b) [Nat.digitChar (n % b)],
        ih (n / b) (Nat.digitChar (n % b) :: l)]
      simp

lemma toDigitsCore_eq_digits :
    ∀ (fuel n : ℕ), n < fuel → n ≠ 0 →
      Nat.toDigitsCore 10 fuel n []
        = ((Nat.digits 10 n).map Nat.digitChar).reverse := by
  intro fuel
  induction fuel with
  | zero => intro n h _; exact absurd h (Nat.not_lt_zero n)
  | succ f ih =>
    intro n hlt hne
    have hdig : Nat.digits 10 n = n % 10 :: Nat.digits 10 (n / 10) :=
      Nat.digits_def' (by norm_num) (Nat.pos_of_ne_zero hne)
    simp only [Nat.toDigitsCore]
    by_cases h : n / 10 = 0
    · rw [if_pos h, hdig, h]
      simp
    · have hdivlt : n / 10 < f := by
        have h1 : n / 10 < n := Nat.div_lt_self (Nat.pos_of_ne_zero hne) (by norm_num)
        omega
      rw [if_neg h, toDigitsCore_acc, ih (n / 10) hdivlt h, hdig]
      simp

lemma natRepr_eq_digits (n : ℕ) (h : n ≠ 0) :
    Nat.repr n = (((Nat.digits 10 n).map Nat.digitChar).reverse).asString := by
  rw [Nat.repr, Nat.toDigits, toDigitsCore_eq_digits (n + 1) n (Nat.lt_succ_self n) h]

lemma digitChar_injOn : ∀ a, a < 10 → ∀ b, b < 10 →
    Nat.digitChar a = Nat.digitChar b → a = b := by decide

lemma digitChar_isDigit : ∀ a, a < 10 → (Nat.digitChar a).isDigit = true := by decide

lemma asString_inj {l1 l2 : List Char} (h : l1.asString = l2.asString) :
    l1 = l2 := by
  have := congrArg String.data h
  simpa [List.asString] using this

lemma map_digitChar_inj :
    ∀ (l1 l2 : List ℕ), (∀ x ∈ l1, x < 10) → (∀ x ∈ l2, x < 10) →
      l1.map Nat.digitChar = l2.map Nat.digitChar → l1 = l2 := by
  intro l1
  induction l1 with
  | nil =>
    intro l2 _ _ h
    cases l2 with
    | nil => rfl
    | cons b t2 => simp at h
  | cons a t ih =>
    intro l2 h1 h2 h
    cases l2 with
    | nil => simp at h
    | cons b t2 =>
      simp only [List.map_cons, List.cons.injEq] at h
      have hab := digitChar_injOn a (h1 a (List.mem_cons_self a t))
        b (h2 b (List.mem_cons_self b t2)) h.1
      have htail := ih t2 (fun x hx => h1 x (List.mem_cons_of_mem a hx))
        (fun x hx => h2 x (List.mem_cons_of_mem b hx)) h.2
      rw [hab, htail]

lemma natRepr_inj {m n : ℕ} (h : Nat.repr m = Nat.repr n) : m = n := by
  by_cases hm : m = 0 <;> by_cases hn : n = 0
  · rw [hm, hn]
  · exfalso
    rw [hm, natRepr_eq_digits n hn] at h
    have hlist := asString_inj h
    have hmap : (Nat.digits 10 n).map Nat.digitChar = ['0'] := by
      have := congrArg List.reverse hlist
      simpa using this.symm
    obtain ⟨d, rest, hds, hrest0⟩ :
        ∃ d rest, Nat.digits 10 n = d :: rest ∧ rest = [] := by
      cases hds : Nat.digits 10 n with
      | nil => rw [hds] at hmap; simp at hmap
      | cons d rest =>
        rw [hds] at hmap
        simp only [List.map_cons, List.cons.injEq] at hmap
        exact ⟨d, rest, rfl, List.map_eq_nil_iff.mp hmap.2⟩
    rw [hrest0] at hds
    have hd10 : d < 10 := Nat.digits_lt_base (by norm_num) (hds ▸ List.mem_singleton_self d)
    have hd0 : d = 0 := by
      have hchar : Nat.digitChar d = '0' := by
        rw [hds] at hmap
        simpa using hmap
      exact digitChar_injOn d hd10 0 (by norm_num) hchar
    have : n = 0 := by
      have hofd := Nat.ofDigits_digits 10 n
      rw [hds, hd0] at hofd
      simpa [Nat.ofDigits] using hofd.symm
    exact hn this
  · exfalso
    rw [hn, natRepr_eq_digits m hm] at h
    have hlist := asString_inj h
    have hmap : (Nat.digits 10 m).map Nat.digitChar = ['0'] := by
      have := congrArg List.reverse hlist
      simpa using this
    obtain ⟨d, rest, hds, hrest0⟩ :
        ∃ d rest, Nat.digits 10 m = d :: rest ∧ rest = [] := by
      cases hds : Nat.digits 10 m with
      | nil => rw [hds] at hmap; simp at hmap
      | cons d rest =>
        rw [hds] at hmap
        simp only [List.map_cons, List.cons.injEq] at hmap
        exact ⟨d, rest, rfl, List.map_eq_nil_iff.mp hmap.2⟩
    rw [hrest0] at hds
    have hd10 : d < 10 := Nat.digits_lt_base (by norm_num) (hds ▸ List.mem_singleton_self d)
    have hd0 : d = 0 := by
      have hchar : Nat.digitChar d = '0' := by
        rw [hds] at hmap
        simpa using hmap
      exact digitChar_injOn d hd10 0 (by norm_num) hchar
    have : m = 0 := by
      have hofd := Nat.ofDigits_digits 10 m
      rw [hds, hd0] at hofd
      simpa [Nat.ofDigits] using hofd.symm
    exact hm this
  · rw [natRepr_eq_digits m hm, natRepr_eq_digits n hn] at h
    have hlist := asString_inj h
    have hmap := List.reverse_injective hlist
    have hdig := map_digitChar_inj _ _
      (fun x hx => Nat.digits_lt_base (by norm_num) hx)
      (fun x hx => Nat.digits_lt_base (by norm_num) hx) hmap
    have hm' := Nat.ofDigits_digits 10 m
    have hn' := Nat.ofDigits_digits 10 n
    rw [← hm', ← hn', hdig]

lemma natRepr_data_isDigit (n : ℕ) :
    ∀ c ∈ (Nat.repr n).data, c.isDigit = true := by
  by_cases hn : n = 0
  · rw [hn]
    intro c hc
    have : c = '0' := by simpa [Nat.repr, Nat.toDigits, Nat.toDigitsCore,
      List.asString] using hc
    rw [this]
    decide
  · rw [natRepr_eq_digits n hn]
    intro c hc
    simp only [List.asString] at hc
    rw [List.mem_reverse] at hc
    obtain ⟨d, hd, rfl⟩ := List.mem_map.mp hc
    exact digitChar_isDigit d (Nat.digits_lt_base (by norm_num) hd)

lemma digit_prefix_eq :
    ∀ (xs xs' t t' : List Char),
      (∀ c ∈ xs, c.isDigit = true) → (∀ c ∈ xs', c.isDigit = true) →
      xs ++ '_' :: t = xs' ++ '_' :: t' → xs = xs' ∧ t = t' := by
  intro xs
  induction xs with
  | nil =>
    intro xs' t t' _ h2 heq
    cases xs' with
    | nil => simpa using heq
    | cons b r =>
      simp only [List.nil_append, List.cons_append, List.cons.injEq] at heq
      exfalso
      have hb := h2 b (List.mem_cons_self b r)
      rw [← heq.1] at hb
      exact absurd hb (by decide)
  | cons a rest ih =>
    intro xs' t t' h1 h2 heq
    cases xs' with
    | nil =>
      simp only [List.cons_append, List.nil_append, List.cons.injEq] at heq
      exfalso
      have ha := h1 a (List.mem_cons_self a rest)
      rw [heq.1] at ha
      exact absurd ha (by decide)
    | cons b r =>
      simp only [List.cons_append, List.cons.injEq] at heq
      obtain ⟨hab, htail⟩ := heq
      obtain ⟨h1', h2'⟩ := ih r t t'
        (fun c hc => h1 c (List.mem_cons_of_mem a hc))
        (fun c hc => h2 c (List.mem_cons_of_mem b hc)) htail
      exact ⟨by rw [hab, h1'], h2'⟩

lemma string_data_inj {s t : String} (h : s.data = t.data) : s = t := by
  cases s
  cases t
  exact congrArg String.mk h

lemma npy_suffix_head {s : String}
    (hs : s = "_pred.npy" ∨ s = "_label.npy" ∨ s = "_img.npy") :
    ∃ sr : List Char, s.data = '_' :: sr := by
  rcases hs with rfl | rfl | rfl
  · exact ⟨"pred.npy".data, rfl⟩
  · exact ⟨"label.npy".data, rfl⟩
  · exact ⟨"img.npy".data, rfl⟩

lemma npy_name_inj (d : String) (i j : ℕ) (s t : String)
    (hs : s = "_pred.npy" ∨ s = "_label.npy" ∨ s = "_img.npy")
    (ht : t = "_pred.npy" ∨ t = "_label.npy" ∨ t = "_img.npy")
    (heq : d ++ "/" ++ Nat.repr i ++ s = d ++ "/" ++ Nat.repr j ++ t) :
    i = j ∧ s = t := by
  obtain ⟨sr, hsr⟩ := npy_suffix_head hs
  obtain ⟨tr, htr⟩ := npy_suffix_head ht
  have hdata := congrArg String.data heq
  simp only [String.data_append, List.append_assoc] at hdata
  have hmid : (Nat.repr i).data ++ s.data = (Nat.repr j).data ++ t.data :=
    List.append_cancel_left (List.append_cancel_left hdata)
  rw [hsr, htr] at hmid
  obtain ⟨hrepr, hrest⟩ := digit_prefix_eq _ _ _ _
    (natRepr_data_isDigit i) (natRepr_data_isDigit j) hmid
  constructor
  · exact natRepr_inj (string_data_inj hrepr)
  · apply string_data_inj
    rw [hsr, htr, hrest]

/-! ### The file store written by `evaluate` -/

/-- The exact sequence of `np.save` calls the loop body emits from loop index
`i` on: three files per iteration, named `{save_dir}/{iter}_pred.npy`,
`{save_dir}/{iter}_label.npy`, `{save_dir}/{iter}_img.npy`. -/
def expectedWrites (env : EvalEnv) (d : String) :
    ℕ → List Sample → List (String × FileData)
  | _, [] => []
  | i, s :: rest =>
      (d ++ "/" ++ Nat.repr i ++ "_pred.npy",
        FileData.ints (env.inference s.im).pred)
      :: (d ++ "/" ++ Nat.repr i ++ "_label.npy", FileData.ints s.label)
      :: (d ++ "/" ++ Nat.repr i ++ "_img.npy", FileData.rats s.im)
      :: expectedWrites env d (i + 1) rest

/-- `np.load` over the write trace viewed as a file system: the content of
`name` is the payload of the last write to `name`. -/
def npLoad (writes : List (String × FileData)) (name : String) :
    Option FileData :=
  (writes.reverse.find? fun ev => ev.1 == name).map Prod.snd

lemma find?_eq_of_nodup_keys :
    ∀ (l : List (String × FileData)), (l.map Prod.fst).Nodup →
      ∀ (n : String) (dta : FileData), (n, dta) ∈ l →
        l.find? (fun ev => ev.1 == n) = some (n, dta) := by
  intro l
  induction l with
  | nil => intro _ n dta h; cases h
  | cons hd tl ih =>
    intro hnd n dta hmem
    simp only [List.map_cons, List.nodup_cons] at hnd
    rcases List.mem_cons.mp hmem with heq | hmem'
    · rw [← heq]
      simp [List.find?]
    · have hne : (hd.1 == n) = false := by
        apply beq_eq_false_iff_ne.mpr
        intro hc
        apply hnd.1
        rw [hc]
        exact List.mem_map.mpr ⟨(n, dta), hmem', rfl⟩
      simp only [List.find?, hne]
      exact ih hnd.2 n dta hmem'

lemma npLoad_mem (l : List (String × FileData))
    (hnd : (l.map Prod.fst).Nodup) (n : String) (dta : FileData)
    (hmem : (n, dta) ∈ l) : npLoad l n = some dta := by
  have hnd' : (l.reverse.map Prod.fst).Nodup := by
    rw [List.map_reverse]
    exact List.nodup_reverse.mpr hnd
  have hmem' : (n, dta) ∈ l.reverse := List.mem_reverse.mpr hmem
  rw [npLoad, find?_eq_of_nodup_keys l.reverse hnd' n dta hmem']
  rfl

lemma expectedWrites_key_shape (env : EvalEnv) (d : String) :
    ∀ (ds : List Sample) (i : ℕ) (n : String),
      n ∈ (expectedWrites env d i ds).map Prod.fst →
      ∃ (j : ℕ) (s : String), i ≤ j
        ∧ (s = "_pred.npy" ∨ s = "_label.npy" ∨ s = "_img.npy")
        ∧ n = d ++ "/" ++ Nat.repr j ++ s := by
  intro ds
  induction ds with
  | nil => intro i n h; simp [expectedWrites] at h
  | cons smp rest ih =>
    intro i n h
    simp only [expectedWrites, List.map_cons, List.mem_cons] at h
    rcases h with rfl | rfl | rfl | h
    · exact ⟨i, "_pred.npy", le_refl i, Or.inl rfl, rfl⟩
    · exact ⟨i, "_label.npy", le_refl i, Or.inr (Or.inl rfl), rfl⟩
    · exact ⟨i, "_img.npy", le_refl i, Or.inr (Or.inr rfl), rfl⟩
    · obtain ⟨j, s, hij, hs, hn⟩ := ih (i + 1) n h
      exact ⟨j, s, by omega, hs, hn⟩

lemma not_mem_keys_of_lt (env : EvalEnv) (d : String) (ds : List Sample)
    (i j : ℕ) (s : String)
    (hs : s = "_pred.npy" ∨ s = "_label.npy" ∨ s = "_img.npy") (hij : j < i) :
    d ++ "/" ++ Nat.repr j ++ s ∉ (expectedWrites env d i ds).map Prod.fst := by
  intro hmem
  obtain ⟨j', s', hij', hs', hn⟩ := expectedWrites_key_shape env d ds i _ hmem
  obtain ⟨hj, _⟩ := npy_name_inj d j j' s s' hs hs' hn
  omega

lemma expectedWrites_keys_nodup (env : EvalEnv) (d : String) :
    ∀ (ds : List Sample) (i : ℕ),
      ((expectedWrites env d i ds).map Prod.fst).Nodup := by
  intro ds
  induction ds with
  | nil => intro i; simp [expectedWrites]
  | cons smp rest ih =>
    intro i
    simp only [expectedWrites, List.map_cons, List.nodup_cons, List.mem_cons]
    refine ⟨?_, ?_, ?_, ih (i + 1)⟩
    · intro h
      rcases h with h | h | h
      · exact absurd
          ((npy_name_inj d i i _ _ (Or.inl rfl) (Or.inr (Or.inl rfl)) h).2)
          (by decide)
      · exact absurd
          ((npy_name_inj d i i _ _ (Or.inl rfl) (Or.inr (Or.inr rfl)) h).2)
          (by decide)
      · exact not_mem_keys_of_lt env d rest (i + 1) i _ (Or.inl rfl)
          (by omega) h
    · intro h
      rcases h with h | h
      · exact absurd
          ((npy_name_inj d i i _ _ (Or.inr (Or.inl rfl)) (Or.inr (Or.inr rfl)) h).2)
          (by decide)
      · exact not_mem_keys_of_lt env d rest (i + 1) i _ (Or.inr (Or.inl rfl))
          (by omega) h
    · intro h
      exact not_mem_keys_of_lt env d rest (i + 1) i _ (Or.inr (Or.inr rfl))
        (by omega) h

lemma runLoop_writes (env : EvalEnv) (a : Bool) (d : String) :
    ∀ (ds : List Sample) (i : ℕ) (st : LoopState),
      (runLoop env a (some d) i st ds).writes
        = st.writes ++ expectedWrites env d i ds := by
  intro ds
  induction ds with
  | nil => intro i st; simp [runLoop, expectedWrites]
  | cons s rest ih =>
    intro i st
    rw [runLoop, ih]
    simp [evalStep, expectedWrites]

/-- C6: with `save_dir` set, iteration `i` of the loop writes exactly the
three array files `{save_dir}/{i}_pred.npy`, `{save_dir}/{i}_label.npy`,
`{save_dir}/{i}_img.npy` (and nothing else), and loading any written file
back from the resulting store returns exactly the array that was saved. -/
theorem evaluate_save_files_roundtrip (env : EvalEnv) (ds : List Sample)
    (auc : Bool) (d : String) (r : EvalResult) (tr : EvalTrace)
    (h : evaluate env ds auc (some d) = .ok (r, tr)) :
    tr.writes = expectedWrites env d 0 ds
      ∧ ∀ ev ∈ tr.writes, npLoad tr.writes ev.1 = some ev.2 := by
  by_cases hlen : ds.length = 0
  · rw [evaluate] at h
    simp [hlen] at h
  · simp only [evaluate, if_neg hlen, Except.ok.injEq, Prod.mk.injEq] at h
    have hw : tr.writes = expectedWrites env d 0 ds := by
      rw [← h.2]
      simpa [initState] using runLoop_writes env auc d ds 0 initState
    refine ⟨hw, ?_⟩
    intro ev hmem
    obtain ⟨n, dta⟩ := ev
    rw [hw] at hmem ⊢
    exact npLoad_mem _ (expectedWrites_keys_nodup env d ds 0) n dta hmem

/-- Witness for C6 on a concrete one-sample dataset and save directory. -/
theorem evaluate_save_files_roundtrip_witness :
    ([("out/0_pred.npy", FileData.ints [0]),
      ("out/0_label.npy", FileData.ints [1]),
      ("out/0_img.npy", FileData.rats [0])] : List (String × FileData))
        = expectedWrites
            { inference := fun _ => { pred := [0], logits := [1, 0] },
              lossComp := fun _ _ => ([1/2], [1, 1/2]),
              softmax := fun l => l,
              aucMetric := fun _ _ => 3/4 } "out" 0 [{ im := [0], label := [1] }]
      ∧ npLoad [("out/0_pred.npy", FileData.ints [0]),
            ("out/0_label.npy", FileData.ints [1]),
            ("out/0_img.npy", FileData.rats [0])] "out/0_label.npy"
          = some (FileData.ints [1]) := by
  have h := evaluate_save_files_roundtrip
    { inference := fun _ => { pred := [0], logits := [1, 0] },
      lossComp := fun _ _ => ([1/2], [1, 1/2]),
      softmax := fun l => l,
      aucMetric := fun _ _ => 3/4 }
    [{ im := [0], label := [1] }] false "out"
    { mdice := 3/4, auc_roc := none }
    { infCalls := [[0]],
      writes := [("out/0_pred.npy", FileData.ints [0]),
                 ("out/0_label.npy", FileData.ints [1]),
                 ("out/0_img.npy", FileData.rats [0])],
      channelDice := [1, 1/2], lossAll := 1/2 }
    (by
      norm_num [evaluate, runLoop, evalStep, initState, meanQ]
      refine ⟨rfl, rfl, rfl⟩)
  exact ⟨h.1, h.2 ("out/0_label.npy", FileData.ints [1]) (by decide)⟩
